import Mathlib

/-!
Shallow embedding of the DTB extraction pipeline (extractdtb.py).

Byte buffers are modelled as lists of natural numbers (byte values),
decoded text as lists of characters.  Each definition mirrors one piece
of the Python source; the theorems below settle the specification
claims about scanning, splitting, metadata extraction, naming and
error handling.
-/

namespace ExtractDtb

/-- The 4-byte DTB magic marker, line 10 of the source:
DTB HEADER is the byte string d0 0d fe ed. -/
def DTB_HEADER : List Nat := [0xd0, 0x0d, 0xfe, 0xed]

/-- Python substring test at one offset: content[i : i + len(marker)] == marker.
This is the success condition of str.find at index i. -/
def matchesAt (content marker : List Nat) (i : Nat) : Bool :=
  decide ((content.drop i).take marker.length = marker)

/-- Fuelled scan for Python bytes.find(marker, start): try indices
start, start+1, ... and return the first where the marker matches. -/
def pyFindAux (content marker : List Nat) : Nat → Nat → Option Nat
  | _, 0 => none
  | i, fuel + 1 =>
    if matchesAt content marker i then some i
    else pyFindAux content marker (i + 1) fuel

/-- Python bytes.find(marker, start): smallest index at or after start
where the marker occurs, if any.  Searching up to the buffer length is
enough: a non-empty marker cannot match at or beyond it. -/
def pyFind (content marker : List Nat) (start : Nat) : Option Nat :=
  pyFindAux content marker start (content.length + 1 - start)

/-- The scan loop of lines 87-91: collect match positions, restarting
each search at the previous hit plus one (overlap-inclusive). -/
def scanLoop (content marker : List Nat) : Nat → Nat → List Nat
  | _, 0 => []
  | start, fuel + 1 =>
    match pyFind content marker start with
    | none => []
    | some p => p :: scanLoop content marker (p + 1) fuel

/-- All DTB header offsets of the buffer, in discovery order
(the list named positions in the source). -/
def positions (content : List Nat) : List Nat :=
  scanLoop content DTB_HEADER 0 (content.length + 1)

/-- Python slice content[s:e] for natural indices. -/
def pySlice (l : List Nat) (s e : Nat) : List Nat :=
  (l.take e).drop s

/-- The splitting loop of lines 104-117: each region runs from its
offset to the next offset, the last one to the end of the buffer. -/
def regionsFrom (content : List Nat) : List Nat → List (List Nat)
  | [] => []
  | p :: ps => pySlice content p (ps.headD content.length) :: regionsFrom content ps

/-- The regions (chunks) the splitter emits for a buffer. -/
def regions (content : List Nat) : List (List Nat) :=
  regionsFrom content (positions content)

/-- Python regex character class for backslash-s, ASCII part. -/
def pyIsSpace (c : Char) : Bool :=
  c = ' ' || c = '\t' || c = '\n' || c = '\r' || c = '\x0b' || c = '\x0c'

/-- Python str.strip(): remove whitespace from both ends. -/
def pyStrip (s : List Char) : List Char :=
  ((s.dropWhile pyIsSpace).reverse.dropWhile pyIsSpace).reverse

/-- Python str.lower(), per character (ASCII range). -/
def pyLower (s : List Char) : List Char :=
  s.map Char.toLower

/-- Python str.split(sep) for a single-character separator: always
returns at least one piece, keeps empty pieces. -/
def pySplit (sep : Char) : List Char → List (List Char)
  | [] => [[]]
  | c :: rest =>
    if c = sep then [] :: pySplit sep rest
    else
      match pySplit sep rest with
      | [] => [[c]]
      | g :: gs => (c :: g) :: gs

/-- Consume an exact literal from the front of the text, returning the
remainder on success. -/
def dropLiteral : List Char → List Char → Option (List Char)
  | [], cs => some cs
  | _ :: _, [] => none
  | k :: ks, c :: cs => if c = k then dropLiteral ks cs else none

/-- Group character of the lazy regex group: any character other than a
double quote (which ends the group) or a newline (which dot never
matches). -/
def groupChar (c : Char) : Bool :=
  !(c = '"' || c = '\n')

/-- Try to match the regex key-backslash-s-star-equals-backslash-s-star-quote-group-quote
at the very start of the text, returning the captured group.  The lazy
group takes characters up to the first closing quote; a newline before
any closing quote makes the match fail at this position. -/
def matchFieldAt (key : List Char) (cs : List Char) : Option (List Char) :=
  match dropLiteral key cs with
  | none => none
  | some r1 =>
    match r1.dropWhile pyIsSpace with
    | '=' :: r3 =>
      match r3.dropWhile pyIsSpace with
      | '"' :: r5 =>
        match r5.dropWhile groupChar with
        | '"' :: _ => some (r5.takeWhile groupChar)
        | _ => none
      | _ => none
    | _ => none

/-- Python re.search for the field pattern: first (leftmost) position
where the pattern matches, returning the captured group. -/
def reSearchGroup (key : List Char) : List Char → Option (List Char)
  | [] => none
  | c :: cs =>
    match matchFieldAt key (c :: cs) with
    | some g => some g
    | none => reSearchGroup key cs

/-- Key of the compatible field. -/
def compatKey : List Char := "compatible".toList

/-- Key of the description field. -/
def descKey : List Char := "description".toList

/-- Lines 31-38 of the source: arg1 from the first compatible field.
Note the source takes split(",")[1], the piece between the first and
second comma. -/
def computeArg1 (dts : List Char) : List Char :=
  match reSearchGroup compatKey dts with
  | none => "unknown".toList
  | some raw =>
    if raw.contains ',' then pyStrip ((pySplit ',' raw).getD 1 [])
    else pyStrip raw

/-- Lines 42-55 of the source: arg2 from the first description field.
Python split always returns at least one piece, so the
len(parts) >= 1 guard always holds and parts[0].strip().lower() is
taken unconditionally once the field is present. -/
def computeArg2 (dts : List Char) : List Char :=
  match reSearchGroup descKey dts with
  | none => "unk".toList
  | some raw => pyLower (pyStrip ((pySplit ',' raw).headD []))

/-- Lines 42-55 of the source: arg3 from the first description field,
taken only when the split has at least two pieces. -/
def computeArg3 (dts : List Char) : List Char :=
  match reSearchGroup descKey dts with
  | none => "unk".toList
  | some raw =>
    let parts := pySplit ',' raw
    if 2 ≤ parts.length then pyLower (pyStrip (parts.getD 1 []))
    else "unk".toList

/-- Line 58 of the source: the canonical name arg1-arg2-arg3.dtb. -/
def makeName (dts : List Char) : List Char :=
  computeArg1 dts ++ '-' :: computeArg2 dts ++ '-' :: computeArg3 dts ++ ".dtb".toList

/-- Outcome of launching the external dtc process: either it ran, with
an exit status and captured standard output, or it could not be
launched at all (which raises in Python and is caught by the
try/except of get_readable_name). -/
inductive ProcOutcome where
  | ran (returncode : Int) (stdout : List Char)
  | launchFailure
deriving DecidableEq

/-- Lines 18-63 of the source, get_readable_name: a launch failure is
caught and yields None; a nonzero exit status yields None; otherwise
the canonical name is built from the captured text. -/
def get_readable_name (outcome : ProcOutcome) : Option (List Char) :=
  match outcome with
  | ProcOutcome.launchFailure => none
  | ProcOutcome.ran rc out => if rc ≠ 0 then none else some (makeName out)

/-- The extension separator position logic of os.path.splitext for a
bare file name (no directory separator): split at the last dot unless
every character before it is a dot. -/
def pySplitext (s : List Char) : List Char × List Char :=
  if s.contains '.' then
    let j := s.length - 1 - s.reverse.indexOf '.'
    if (s.take j).all (fun c => c = '.') then (s, [])
    else (s.take j, s.drop j)
  else (s, [])

/-- Decimal digit characters of a natural number. -/
def natDigits (n : Nat) : List Char :=
  Nat.toDigits 10 n

/-- Python format {i:02d}: decimal, left-padded with a zero to width 2. -/
def pad2 (i : Nat) : List Char :=
  if i < 10 then '0' :: natDigits i else natDigits i

/-- Line 144 of the source: the fallback name unknown_{i:02d}.dtb. -/
def fallbackName (i : Nat) : List Char :=
  "unknown_".toList ++ pad2 i ++ ".dtb".toList

/-- The used_names dictionary of line 102, as a lookup function. -/
def UsedMap : Type := List Char → Option Nat

/-- The registry at run start: empty. -/
def emptyUsed : UsedMap := fun _ => none

/-- Store a count under a name. -/
def updateUsed (used : UsedMap) (k : List Char) (v : Nat) : UsedMap :=
  fun s => if s = k then some v else used s

/-- Lines 129-137 of the source: resolve a decoded name against the
registry.  First use registers count 0 and emits the name unchanged;
a later use increments the count and emits base_count ++ ext, where
base and ext come from os.path.splitext. -/
def assignName (used : UsedMap) (new_name : List Char) : List Char × UsedMap :=
  match used new_name with
  | some c =>
    let c2 := c + 1
    let p := pySplitext new_name
    (p.1 ++ '_' :: natDigits c2 ++ p.2, updateUsed used new_name c2)
  | none => (new_name, updateUsed used new_name 0)

/-- The naming part of the extraction loop (lines 112-147), with all
writes succeeding: each region's decode result is turned into a final
file name, threading the registry; a failed decode takes the fallback
name and leaves the registry untouched. -/
def mainLoop : List (Option (List Char)) → Nat → UsedMap → List (List Char)
  | [], _, _ => []
  | some nm :: ds, i, used =>
    let r := assignName used nm
    r.1 :: mainLoop ds (i + 1) r.2
  | none :: ds, i, used => fallbackName i :: mainLoop ds (i + 1) used

/-- The extraction loop with a per-region write oracle: writing region
i (the temporary dump and the rename) may fail, which in the source
raises an uncaught exception and aborts the run at that index. -/
def processRegions (writeOk : Nat → Bool) :
    List (Option (List Char)) → Nat → UsedMap → Except Nat (List (List Char))
  | [], _, _ => Except.ok []
  | d :: ds, i, used =>
    if writeOk i then
      match d with
      | some nm =>
        let r := assignName used nm
        match processRegions writeOk ds (i + 1) r.2 with
        | Except.ok fs => Except.ok (r.1 :: fs)
        | Except.error j => Except.error j
      | none =>
        match processRegions writeOk ds (i + 1) used with
        | Except.ok fs => Except.ok (fallbackName i :: fs)
        | Except.error j => Except.error j
    else Except.error i

/-- Observable outcome of one run of main (lines 69-149): process exit
status, whether the output directory was created, and the final file
names written, in order. -/
structure RunResult where
  exitCode : Nat
  outDirCreated : Bool
  files : List (List Char)
deriving DecidableEq

/-- Top level of main, lines 78-149, with the external decoder
abstracted as a per-region oracle and all writes succeeding: a missing
input exits 1 before creating anything; a marker-free input exits 0
before creating the output directory; otherwise the directory is
created and the loop runs over all regions. -/
def mainRun (inputExists : Bool) (content : List Nat) (decode : Nat → ProcOutcome) : RunResult :=
  if inputExists = false then ⟨1, false, []⟩
  else
    let ps := positions content
    if ps.isEmpty then ⟨0, false, []⟩
    else
      let decoded := (List.range ps.length).map (fun i => get_readable_name (decode i))
      ⟨0, true, mainLoop decoded 0 emptyUsed⟩

/-- Number of occurrences of a name in a list of names. -/
def countOcc (b : List Char) : List (List Char) → Nat
  | [] => 0
  | x :: xs => (if x = b then 1 else 0) + countOcc b xs

/-- The suffixed collision name base_k ++ ext built by lines 132-134. -/
def suffixed (b : List Char) (k : Nat) : List Char :=
  (pySplitext b).1 ++ '_' :: natDigits k ++ (pySplitext b).2

/-- The dtb extension as characters. -/
def dtbExt : List Char := ".dtb".toList

end ExtractDtb

namespace ExtractDtb

/-! ### Scanner lemmas -/

theorem matchesAt_iff {c m : List Nat} {i : Nat} :
    matchesAt c m i = true ↔ (c.drop i).take m.length = m := by
  simp [matchesAt]

theorem matchesAt_bound {c m : List Nat} {i : Nat} (hm : m ≠ [])
    (h : matchesAt c m i = true) : i + m.length ≤ c.length := by
  rw [matchesAt_iff] at h
  have hlen := congrArg List.length h
  simp [List.length_take, List.length_drop] at hlen
  have hmpos : 0 < m.length := List.length_pos.mpr hm
  omega

theorem matchesAt_lt_length {c m : List Nat} {i : Nat} (hm : m ≠ [])
    (h : matchesAt c m i = true) : i < c.length := by
  have := matchesAt_bound hm h
  have hmpos : 0 < m.length := List.length_pos.mpr hm
  omega

theorem pyFindAux_none {c m : List Nat} :
    ∀ fuel i, pyFindAux c m i fuel = none →
      ∀ j, i ≤ j → j < i + fuel → matchesAt c m j = false := by
  intro fuel
  induction fuel with
  | zero => intro i _ j h1 h2; omega
  | succ f ih =>
    intro i h j h1 h2
    rw [pyFindAux] at h
    by_cases hmi : matchesAt c m i = true
    · simp [hmi] at h
    · simp [hmi] at h
      rcases Nat.eq_or_lt_of_le h1 with rfl | hlt
      · exact Bool.eq_false_iff.mpr hmi
      · exact ih (i + 1) h j hlt (by omega)

theorem pyFindAux_some {c m : List Nat} :
    ∀ fuel i p, pyFindAux c m i fuel = some p →
      i ≤ p ∧ p < i + fuel ∧ matchesAt c m p = true ∧
        ∀ j, i ≤ j → j < p → matchesAt c m j = false := by
  intro fuel
  induction fuel with
  | zero => intro i p h; simp [pyFindAux] at h
  | succ f ih =>
    intro i p h
    rw [pyFindAux] at h
    by_cases hmi : matchesAt c m i = true
    · simp [hmi] at h
      subst h
      exact ⟨le_refl _, by omega, hmi, fun j h1 h2 => by omega⟩
    · simp [hmi] at h
      obtain ⟨h1, h2, h3, h4⟩ := ih (i + 1) p h
      refine ⟨by omega, by omega, h3, fun j hj1 hj2 => ?_⟩
      rcases Nat.eq_or_lt_of_le hj1 with rfl | hlt
      · exact Bool.eq_false_iff.mpr hmi
      · exact h4 j hlt hj2

theorem pyFind_none {c m : List Nat} {start : Nat} (hm : m ≠ [])
    (h : pyFind c m start = none) :
    ∀ j, start ≤ j → matchesAt c m j = false := by
  intro j hj
  by_cases hjl : j < c.length
  · exact pyFindAux_none _ _ h j hj (by omega)
  · by_cases hmj : matchesAt c m j = true
    · exact absurd (matchesAt_lt_length hm hmj) hjl
    · exact Bool.eq_false_iff.mpr hmj

theorem pyFind_some {c m : List Nat} {start p : Nat} (hm : m ≠ [])
    (h : pyFind c m start = some p) :
    start ≤ p ∧ p < c.length ∧ matchesAt c m p = true ∧
      ∀ j, start ≤ j → j < p → matchesAt c m j = false := by
  obtain ⟨h1, _, h3, h4⟩ := pyFindAux_some _ _ _ h
  exact ⟨h1, matchesAt_lt_length hm h3, h3, h4⟩

theorem scanLoop_eq_filter (c m : List Nat) (hm : m ≠ []) :
    ∀ fuel start, c.length - start ≤ fuel →
      scanLoop c m start fuel =
        (List.range' start (c.length - start)).filter (fun i => matchesAt c m i) := by
  intro fuel
  induction fuel with
  | zero =>
    intro start hf
    have : c.length - start = 0 := by omega
    rw [this]
    rfl
  | succ f ih =>
    intro start hf
    rw [scanLoop]
    cases hfind : pyFind c m start with
    | none =>
      have hall := pyFind_none hm hfind
      rw [eq_comm, List.filter_eq_nil]
      intro a ha
      have := List.mem_range'_1.mp ha
      simp [hall a this.1]
    | some p =>
      obtain ⟨h1, h2, h3, h4⟩ := pyFind_some hm hfind
      have hsplit : List.range' start (c.length - start) =
          List.range' start (p - start) ++ List.range' p (c.length - p) := by
        have := List.range'_append start (p - start) (c.length - p) 1
        simp only [Nat.one_mul] at this
        rw [show start + (p - start) = p by omega] at this
        rw [show c.length - p + (p - start) = c.length - start by omega] at this
        exact this.symm
      rw [hsplit, List.filter_append]
      have hleft : (List.range' start (p - start)).filter (fun i => matchesAt c m i) = [] := by
        rw [List.filter_eq_nil]
        intro a ha
        have hmem := List.mem_range'_1.mp ha
        simp [h4 a hmem.1 (by omega)]
      rw [hleft, List.nil_append]
      have hsucc : c.length - p = (c.length - (p + 1)) + 1 := by omega
      rw [hsucc, List.range'_succ]
      simp only [List.filter_cons, h3]
      rw [ih (p + 1) (by omega)]
      simp

theorem DTB_HEADER_ne_nil : DTB_HEADER ≠ [] := by decide

theorem positions_eq_filter (c : List Nat) :
    positions c = (List.range c.length).filter (fun i => matchesAt c DTB_HEADER i) := by
  rw [positions, scanLoop_eq_filter c DTB_HEADER DTB_HEADER_ne_nil (c.length + 1) 0 (by omega)]
  rw [List.range_eq_range']
  simp

/-- C2: the scanner returns exactly the ordered sequence of all offsets
where the 4-byte marker occurs (overlap-inclusive: every index of the
buffer is examined, so matches one byte after a previous match are
found); if the marker occurs nowhere the result is empty, and on a
marker-free input the run is the distinct nothing-to-extract outcome:
exit status 0, no output directory, no files. -/
theorem C2_scanner_offsets (content : List Nat) :
    positions content =
      (List.range content.length).filter (fun i => matchesAt content DTB_HEADER i) ∧
    (positions content = [] ↔ ∀ i, matchesAt content DTB_HEADER i = false) ∧
    (∀ decode, positions content = [] →
      mainRun true content decode = ⟨0, false, []⟩) := by
  refine ⟨positions_eq_filter content, ⟨?_, ?_⟩, ?_⟩
  · intro h i
    by_cases hi : i < content.length
    · rw [positions_eq_filter] at h
      rw [List.filter_eq_nil] at h
      have := h i (List.mem_range.mpr hi)
      simpa using this
    · by_cases hmi : matchesAt content DTB_HEADER i = true
      · exact absurd (matchesAt_lt_length DTB_HEADER_ne_nil hmi) hi
      · exact Bool.eq_false_iff.mpr hmi
  · intro h
    rw [positions_eq_filter, List.filter_eq_nil]
    intro a _
    simp [h a]
  · intro decode h
    rw [mainRun]
    simp [h]

/-- Witness for C2 at a concrete marker-free buffer. -/
theorem C2_scanner_offsets_witness :
    positions [1, 2, 3] = [] ∧
    mainRun true [1, 2, 3] (fun _ => ProcOutcome.launchFailure) = ⟨0, false, []⟩ :=
  ⟨by decide, (C2_scanner_offsets [1, 2, 3]).2.2 (fun _ => ProcOutcome.launchFailure) (by decide)⟩

end ExtractDtb

namespace ExtractDtb

/-! ### Splitter lemmas -/

theorem regionsFrom_length (c : List Nat) :
    ∀ ps : List Nat, (regionsFrom c ps).length = ps.length := by
  intro ps
  induction ps with
  | nil => rfl
  | cons p ps ih => simp [regionsFrom, ih]

theorem regionsFrom_getD (c : List Nat) :
    ∀ (ps : List Nat) (i : Nat), i < ps.length →
      (regionsFrom c ps).getD i [] =
        pySlice c (ps.getD i 0) ((ps ++ [c.length]).getD (i + 1) 0) := by
  intro ps
  induction ps with
  | nil => intro i hi; simp at hi
  | cons p ps ih =>
    intro i hi
    cases i with
    | zero =>
      simp only [regionsFrom, List.getD_cons_zero, List.cons_append, List.getD_cons_succ]
      cases ps with
      | nil => simp
      | cons q qs => simp
    | succ j =>
      simp only [regionsFrom, List.getD_cons_succ, List.cons_append]
      exact ih j (by simpa using hi)

theorem positions_sorted (c : List Nat) :
    List.Pairwise (· < ·) (positions c) := by
  rw [positions_eq_filter]
  exact (List.pairwise_lt_range c.length).filter _

theorem positions_mem_matches {c : List Nat} {p : Nat} (h : p ∈ positions c) :
    matchesAt c DTB_HEADER p = true := by
  rw [positions_eq_filter] at h
  exact (List.mem_filter.mp h).2

theorem positions_mem_lt {c : List Nat} {p : Nat} (h : p ∈ positions c) :
    p < c.length := by
  rw [positions_eq_filter] at h
  exact List.mem_range.mp (List.mem_filter.mp h).1

theorem pySlice_append_drop {c : List Nat} {p q : Nat} (hpq : p ≤ q) (hq : q ≤ c.length) :
    pySlice c p q ++ c.drop q = c.drop p := by
  conv_rhs => rw [← List.take_append_drop q c]
  rw [List.drop_append_eq_append_drop]
  have hlen : (c.take q).length = q := by
    rw [List.length_take]
    omega
  rw [hlen, show p - q = 0 by omega, List.drop_zero]
  rfl

theorem regionsFrom_join (c : List Nat) :
    ∀ ps : List Nat, List.Chain' (· ≤ ·) ps → (∀ p ∈ ps, p ≤ c.length) →
      ps ≠ [] → (regionsFrom c ps).join = c.drop (ps.headD 0) := by
  intro ps
  induction ps with
  | nil => intro _ _ h; exact absurd rfl h
  | cons p ps ih =>
    intro hchain hmem _
    cases ps with
    | nil =>
      show (regionsFrom c [p]).flatten = c.drop ((p :: []).headD 0)
      rw [show regionsFrom c [p] = [pySlice c p c.length] from rfl]
      rw [List.flatten_cons, List.flatten_nil, List.append_nil, List.headD_cons]
      rw [pySlice, List.take_length]
    | cons q qs =>
      have hpq : p ≤ q := (List.chain'_cons.mp hchain).1
      have hq : q ≤ c.length := hmem q (by simp)
      have htail := ih (List.chain'_cons.mp hchain).2
        (fun x hx => hmem x (by simp [hx])) (by simp)
      rw [show regionsFrom c (p :: q :: qs) =
            pySlice c p q :: regionsFrom c (q :: qs) from rfl]
      rw [List.headD_cons] at htail ⊢
      show (pySlice c p q :: regionsFrom c (q :: qs)).flatten = List.drop p c
      rw [List.flatten_cons]
      have htail' : (regionsFrom c (q :: qs)).flatten = List.drop q c := htail
      rw [htail']
      exact pySlice_append_drop hpq hq

theorem positions_chain_le (c : List Nat) :
    List.Chain' (· ≤ ·) (positions c) :=
  ((positions_sorted c).imp (fun h => le_of_lt h)).chain'

theorem positions_head_le {c : List Nat} {p : Nat} (h : p ∈ positions c) :
    (positions c).headD 0 ≤ p := by
  have hs := positions_sorted c
  cases hps : positions c with
  | nil => rw [hps] at h; simp at h
  | cons q qs =>
    rw [hps] at h hs
    simp only [List.headD_cons]
    rcases List.mem_cons.mp h with rfl | hmem
    · exact le_refl _
    · exact le_of_lt ((List.pairwise_cons.mp hs).1 p hmem)

/-- C1: for a buffer with at least one marker occurrence, the splitter
emits one region per marker offset in discovery order; region i is the
slice from offset i to the next offset (buffer length for the last);
concatenating the regions reproduces the buffer from the first offset
on; and every offset (hence every region) lies at or after the first
offset, so bytes before the first marker appear in no region. -/
theorem C1_splitter_partition (content : List Nat) (h : positions content ≠ []) :
    (regions content).length = (positions content).length ∧
    (∀ i, i < (positions content).length →
      (regions content).getD i [] =
        pySlice content ((positions content).getD i 0)
          ((positions content ++ [content.length]).getD (i + 1) 0)) ∧
    (regions content).join = content.drop ((positions content).headD 0) ∧
    (∀ p ∈ positions content, (positions content).headD 0 ≤ p) := by
  refine ⟨regionsFrom_length content _, fun i hi => regionsFrom_getD content _ i hi, ?_, ?_⟩
  · exact regionsFrom_join content (positions content) (positions_chain_le content)
      (fun p hp => le_of_lt (positions_mem_lt hp)) h
  · exact fun p hp => positions_head_le hp

/-- Witness for C1 at a concrete two-marker buffer. -/
theorem C1_splitter_partition_witness :
    positions [0xd0, 0x0d, 0xfe, 0xed, 1, 0xd0, 0x0d, 0xfe, 0xed, 2] ≠ [] ∧
    ((regions [0xd0, 0x0d, 0xfe, 0xed, 1, 0xd0, 0x0d, 0xfe, 0xed, 2]).join =
      List.drop ((positions [0xd0, 0x0d, 0xfe, 0xed, 1, 0xd0, 0x0d, 0xfe, 0xed, 2]).headD 0)
        [0xd0, 0x0d, 0xfe, 0xed, 1, 0xd0, 0x0d, 0xfe, 0xed, 2]) :=
  ⟨by decide,
    (C1_splitter_partition [0xd0, 0x0d, 0xfe, 0xed, 1, 0xd0, 0x0d, 0xfe, 0xed, 2]
      (by decide)).2.2.1⟩

end ExtractDtb

namespace ExtractDtb

/-! ### Region shape lemmas (marker at the head, length at least four) -/

theorem matchesAt_getElem {w m : List Nat} {i j : Nat} (h : matchesAt w m i = true)
    (hj : j < m.length) : w[i + j]? = m[j]? := by
  rw [matchesAt_iff] at h
  have hcast := congrArg (fun l => l[j]?) h
  simp only at hcast
  rw [List.getElem?_take] at hcast
  rw [if_pos hj] at hcast
  rw [List.getElem?_drop] at hcast
  exact hcast

theorem matchesAt_gap {w : List Nat} {p q : Nat}
    (hp : matchesAt w DTB_HEADER p = true) (hq : matchesAt w DTB_HEADER q = true)
    (hlt : p < q) : p + 4 ≤ q := by
  by_contra hcon
  have h0 : w[q + 0]? = DTB_HEADER[0]? := matchesAt_getElem hq (by decide)
  have hd : q - p = 1 ∨ q - p = 2 ∨ q - p = 3 := by omega
  rcases hd with h | h | h
  · have h1 : w[p + 1]? = DTB_HEADER[1]? := matchesAt_getElem hp (by decide)
    rw [show p + 1 = q + 0 by omega, h0] at h1
    exact absurd h1 (by decide)
  · have h1 : w[p + 2]? = DTB_HEADER[2]? := matchesAt_getElem hp (by decide)
    rw [show p + 2 = q + 0 by omega, h0] at h1
    exact absurd h1 (by decide)
  · have h1 : w[p + 3]? = DTB_HEADER[3]? := matchesAt_getElem hp (by decide)
    rw [show p + 3 = q + 0 by omega, h0] at h1
    exact absurd h1 (by decide)

theorem DTB_HEADER_length : DTB_HEADER.length = 4 := rfl

theorem regionsFrom_take4 (c : List Nat) :
    ∀ ps : List Nat, List.Chain' (· < ·) ps →
      (∀ p ∈ ps, matchesAt c DTB_HEADER p = true) →
      ∀ r ∈ regionsFrom c ps, r.take 4 = DTB_HEADER ∧ 4 ≤ r.length := by
  intro ps
  induction ps with
  | nil => intro _ _ r hr; simp [regionsFrom] at hr
  | cons p ps ih =>
    intro hchain hmatch r hr
    rw [show regionsFrom c (p :: ps) =
          pySlice c p (ps.headD c.length) :: regionsFrom c ps from rfl] at hr
    rcases List.mem_cons.mp hr with rfl | hmem
    · have hp : matchesAt c DTB_HEADER p = true := hmatch p (by simp)
      have hpb : p + 4 ≤ c.length := by
        have := matchesAt_bound DTB_HEADER_ne_nil hp
        rw [DTB_HEADER_length] at this
        exact this
      have hep : p + 4 ≤ ps.headD c.length ∧ ps.headD c.length ≤ c.length := by
        cases ps with
        | nil => exact ⟨by simpa using hpb, by simp⟩
        | cons q qs =>
          have hq : matchesAt c DTB_HEADER q = true := hmatch q (by simp)
          have hpq : p < q := (List.chain'_cons.mp hchain).1
          have hgap := matchesAt_gap hp hq hpq
          have hqb : q + 4 ≤ c.length := by
            have := matchesAt_bound DTB_HEADER_ne_nil hq
            rw [DTB_HEADER_length] at this
            exact this
          exact ⟨by simpa using hgap, by simp; omega⟩
      have hr4 : (pySlice c p (ps.headD c.length)).take 4 = DTB_HEADER := by
        rw [pySlice, List.drop_take, List.take_take]
        rw [show (4 : Nat) ⊓ (ps.headD c.length - p) = 4 by
          rw [min_eq_left]; omega]
        have hmp := matchesAt_iff.mp hp
        rw [DTB_HEADER_length] at hmp
        exact hmp
      refine ⟨hr4, ?_⟩
      have hlen := congrArg List.length hr4
      rw [List.length_take, DTB_HEADER_length] at hlen
      omega
    · exact ih hchain.tail (fun x hx => hmatch x (by simp [hx])) r hmem

/-- C10: every region the pipeline emits begins with the 4-byte marker
and is at least 4 bytes long; moreover consecutive marker offsets
differ by at least 4, since the marker has no nontrivial
self-overlap. -/
theorem C10_regions_marker (content : List Nat) (r : List Nat) (hr : r ∈ regions content) :
    r.take 4 = DTB_HEADER ∧ 4 ≤ r.length ∧
    List.Chain' (fun a b => a + 4 ≤ b) (positions content) := by
  have hmain := regionsFrom_take4 content (positions content)
    (positions_sorted content).chain'
    (fun p hp => positions_mem_matches hp) r hr
  refine ⟨hmain.1, hmain.2, ?_⟩
  have hpw : List.Pairwise (fun a b => a + 4 ≤ b) (positions content) := by
    refine List.Pairwise.imp_of_mem ?_ (positions_sorted content)
    intro a b ha hb hab
    exact matchesAt_gap (positions_mem_matches ha) (positions_mem_matches hb) hab
  exact hpw.chain'

/-- Witness for C10 at a concrete one-marker buffer. -/
theorem C10_regions_marker_witness :
    [0xd0, 0x0d, 0xfe, 0xed, 9] ∈ regions [0xd0, 0x0d, 0xfe, 0xed, 9] ∧
    ([0xd0, 0x0d, 0xfe, 0xed, 9].take 4 = DTB_HEADER ∧
      4 ≤ [0xd0, 0x0d, 0xfe, 0xed, 9].length ∧
      List.Chain' (fun a b => a + 4 ≤ b) (positions [0xd0, 0x0d, 0xfe, 0xed, 9])) :=
  ⟨by decide, C10_regions_marker [0xd0, 0x0d, 0xfe, 0xed, 9] [0xd0, 0x0d, 0xfe, 0xed, 9]
    (by decide)⟩

end ExtractDtb

namespace ExtractDtb

/-! ### Naming loop lemmas -/

theorem mainLoop_length :
    ∀ (ds : List (Option (List Char))) (i : Nat) (used : UsedMap),
      (mainLoop ds i used).length = ds.length := by
  intro ds
  induction ds with
  | nil => intro i used; rfl
  | cons d ds ih =>
    intro i used
    cases d with
    | none => simp [mainLoop, ih]
    | some nm => simp [mainLoop, ih]

theorem mainLoop_getD_none (ds : List (Option (List Char))) :
    ∀ (i0 i : Nat) (used : UsedMap), i < ds.length → ds.getD i (some []) = none →
      (mainLoop ds i0 used).getD i [] = fallbackName (i0 + i) := by
  induction ds with
  | nil => intro i0 i used hi _; simp at hi
  | cons d ds ih =>
    intro i0 i used hi hnone
    cases i with
    | zero =>
      rw [List.getD_cons_zero] at hnone
      subst hnone
      rw [show mainLoop (none :: ds) i0 used =
            fallbackName i0 :: mainLoop ds (i0 + 1) used from rfl]
      rw [List.getD_cons_zero]
      congr 1
    | succ j =>
      rw [List.getD_cons_succ] at hnone
      have hj : j < ds.length := by simpa using hi
      cases d with
      | none =>
        rw [show mainLoop (none :: ds) i0 used =
              fallbackName i0 :: mainLoop ds (i0 + 1) used from rfl]
        rw [List.getD_cons_succ, ih (i0 + 1) j used hj hnone]
        congr 1
        omega
      | some nm =>
        rw [show mainLoop (some nm :: ds) i0 used =
              (assignName used nm).1 :: mainLoop ds (i0 + 1) (assignName used nm).2 from rfl]
        rw [List.getD_cons_succ, ih (i0 + 1) j _ hj hnone]
        congr 1
        omega

/-- C6: a region whose decode failed is named by the index-based
fallback unknown_{i:02d}.dtb, for any registry contents and any
surrounding regions (the registry is not consulted and not changed
for it). -/
theorem C6_fallback_bypasses_registry (ds : List (Option (List Char))) (i : Nat)
    (used : UsedMap) (hi : i < ds.length) (hnone : ds.getD i (some []) = none) :
    (mainLoop ds 0 used).getD i [] = fallbackName i := by
  have h := mainLoop_getD_none ds 0 i used hi hnone
  simpa using h

/-- Witness for C6: a failed decode at index 0, with another region
present, is named unknown_00.dtb. -/
theorem C6_fallback_bypasses_registry_witness :
    (0 < ([none, some (("a-b-c.dtb").toList)] : List (Option (List Char))).length ∧
      ([none, some (("a-b-c.dtb").toList)] : List (Option (List Char))).getD 0 (some []) = none) ∧
    (mainLoop [none, some (("a-b-c.dtb").toList)] 0 emptyUsed).getD 0 [] = fallbackName 0 ∧
    fallbackName 0 = ("unknown_00.dtb").toList :=
  ⟨⟨by decide, by decide⟩,
    C6_fallback_bypasses_registry [none, some (("a-b-c.dtb").toList)] 0 emptyUsed
      (by decide) (by decide), by decide⟩

/-- C7: a nonzero decompiler exit status, or a failure to launch the
process, makes the decode adapter return no text (None) instead of
an error, and the naming loop still processes every region. -/
theorem C7_decode_failure_nonfatal (o : ProcOutcome)
    (h : o = ProcOutcome.launchFailure ∨
      ∃ rc out, o = ProcOutcome.ran rc out ∧ rc ≠ 0) :
    get_readable_name o = none ∧
    ∀ (ds : List (Option (List Char))) (i : Nat) (used : UsedMap),
      (mainLoop ds i used).length = ds.length := by
  constructor
  · rcases h with rfl | ⟨rc, out, rfl, hrc⟩
    · rfl
    · simp [get_readable_name, hrc]
  · exact mainLoop_length

/-- Witness for C7 at a concrete nonzero exit status and at a launch
failure. -/
theorem C7_decode_failure_nonfatal_witness :
    get_readable_name (ProcOutcome.ran 1 []) = none ∧
    get_readable_name ProcOutcome.launchFailure = none :=
  ⟨(C7_decode_failure_nonfatal (ProcOutcome.ran 1 [])
      (Or.inr ⟨1, [], rfl, by decide⟩)).1,
    (C7_decode_failure_nonfatal ProcOutcome.launchFailure (Or.inl rfl)).1⟩

/-- C9: a missing input is fatal: exit status 1, no output directory,
no files; an existing input with no marker exits 0 after the
informational message with no directory and no files. -/
theorem C9_exit_behavior (content : List Nat) (decode : Nat → ProcOutcome) :
    mainRun false content decode = ⟨1, false, []⟩ ∧
    (positions content = [] → mainRun true content decode = ⟨0, false, []⟩) := by
  constructor
  · rfl
  · intro h
    rw [mainRun]
    simp [h]

/-- Witness for C9 at a concrete marker-free buffer. -/
theorem C9_exit_behavior_witness :
    mainRun false [7] (fun _ => ProcOutcome.launchFailure) = ⟨1, false, []⟩ ∧
    (positions [7] = [] ∧
      mainRun true [7] (fun _ => ProcOutcome.launchFailure) = ⟨0, false, []⟩) :=
  ⟨(C9_exit_behavior [7] (fun _ => ProcOutcome.launchFailure)).1,
    by decide,
    (C9_exit_behavior [7] (fun _ => ProcOutcome.launchFailure)).2 (by decide)⟩

end ExtractDtb

namespace ExtractDtb

/-! ### Registry and collision lemmas -/

theorem dtbExt_eq : dtbExt = ['.', 'd', 't', 'b'] := rfl

theorem append_dtbExt_contains (X : List Char) : (X ++ dtbExt).contains '.' = true := by
  induction X with
  | nil => decide
  | cons c rest ih =>
    rw [List.cons_append, List.contains_cons, ih]
    simp

theorem pySplitext_dtb (X : List Char) (hX : X.any (fun c => c ≠ '.') = true) :
    pySplitext (X ++ dtbExt) = (X, dtbExt) := by
  have hcontains := append_dtbExt_contains X
  have hrev : (X ++ dtbExt).reverse = 'b' :: 't' :: 'd' :: '.' :: X.reverse := by
    rw [List.reverse_append]
    rfl
  have hidx : (X ++ dtbExt).reverse.indexOf '.' = 3 := by
    rw [hrev]
    rw [List.indexOf_cons_ne _ (by decide), List.indexOf_cons_ne _ (by decide),
        List.indexOf_cons_ne _ (by decide), List.indexOf_cons_self]
  have hlen : (X ++ dtbExt).length = X.length + 4 := by
    rw [List.length_append]
    rfl
  have hall : X.all (fun c => c = '.') = false := by
    rcases List.any_eq_true.mp hX with ⟨c, hc, hcne⟩
    rw [Bool.eq_false_iff]
    intro hcon
    have hcdot := List.all_eq_true.mp hcon c hc
    simp only [decide_eq_true_eq] at hcdot hcne
    exact hcne hcdot
  rw [pySplitext, if_pos hcontains]
  simp only [hidx, hlen]
  have hj : X.length + 4 - 1 - 3 = X.length := by omega
  simp only [hj, List.take_left, List.drop_left, hall]
  simp

theorem countOcc_append (b : List Char) (h1 h2 : List (List Char)) :
    countOcc b (h1 ++ h2) = countOcc b h1 + countOcc b h2 := by
  induction h1 with
  | nil => simp [countOcc]
  | cons x xs ih =>
    rw [List.cons_append]
    rw [show countOcc b (x :: (xs ++ h2)) =
          (if x = b then 1 else 0) + countOcc b (xs ++ h2) from rfl]
    rw [show countOcc b (x :: xs) = (if x = b then 1 else 0) + countOcc b xs from rfl]
    rw [ih]
    omega

theorem assignName_step (hist : List (List Char)) (used : UsedMap) (n : List Char)
    (hinv : ∀ b, used b =
      if countOcc b hist = 0 then none else some (countOcc b hist - 1)) :
    (assignName used n).1 =
      (if countOcc n hist = 0 then n else suffixed n (countOcc n hist)) ∧
    (∀ b, (assignName used n).2 b =
      if countOcc b (hist ++ [n]) = 0 then none
      else some (countOcc b (hist ++ [n]) - 1)) := by
  have hn := hinv n
  by_cases h0 : countOcc n hist = 0
  · rw [h0, if_pos rfl] at hn
    constructor
    · rw [assignName, hn, if_pos h0]
    · intro b
      rw [assignName, hn]
      show updateUsed used n 0 b = _
      rw [updateUsed]
      by_cases hb : b = n
      · subst hb
        rw [if_pos rfl, countOcc_append]
        rw [show countOcc b [b] = 1 from by simp [countOcc]]
        rw [h0]
        simp
      · have hnb : ¬n = b := fun hh => hb hh.symm
        rw [if_neg hb, hinv b, countOcc_append]
        rw [show countOcc b [n] = 0 from by simp [countOcc, hnb]]
        rw [Nat.add_zero]
  · rw [if_neg h0] at hn
    constructor
    · rw [assignName, hn]
      show (suffixed n (countOcc n hist - 1 + 1)) = _
      rw [if_neg h0]
      congr 1
      omega
    · intro b
      rw [assignName, hn]
      show updateUsed used n (countOcc n hist - 1 + 1) b = _
      rw [updateUsed]
      by_cases hb : b = n
      · subst hb
        rw [if_pos rfl, countOcc_append]
        rw [show countOcc b [b] = 1 from by simp [countOcc]]
        rw [if_neg (by omega)]
        congr 1
        omega
      · have hnb : ¬n = b := fun hh => hb hh.symm
        rw [if_neg hb, hinv b, countOcc_append]
        rw [show countOcc b [n] = 0 from by simp [countOcc, hnb]]
        rw [Nat.add_zero]

theorem mainLoop_map_some_getD (ns : List (List Char)) :
    ∀ (hist : List (List Char)) (i0 : Nat) (used : UsedMap),
      (∀ b, used b =
        if countOcc b hist = 0 then none else some (countOcc b hist - 1)) →
      ∀ i, i < ns.length →
        (mainLoop (ns.map some) i0 used).getD i [] =
          (if countOcc (ns.getD i []) (hist ++ ns.take i) = 0 then ns.getD i []
           else suffixed (ns.getD i [])
             (countOcc (ns.getD i []) (hist ++ ns.take i))) := by
  induction ns with
  | nil => intro hist i0 used hinv i hi; simp at hi
  | cons n rest ih =>
    intro hist i0 used hinv i hi
    obtain ⟨hemit, hupd⟩ := assignName_step hist used n hinv
    rw [show (n :: rest).map some = some n :: rest.map some from rfl]
    rw [show mainLoop (some n :: rest.map some) i0 used =
          (assignName used n).1 ::
            mainLoop (rest.map some) (i0 + 1) (assignName used n).2 from rfl]
    cases i with
    | zero =>
      rw [List.getD_cons_zero, hemit, List.getD_cons_zero, List.take_zero,
        List.append_nil]
    | succ j =>
      rw [List.getD_cons_succ, List.getD_cons_succ, List.take_succ_cons]
      have hassoc : hist ++ (n :: rest.take j) = (hist ++ [n]) ++ rest.take j := by
        simp
      rw [hassoc]
      exact ih (hist ++ [n]) (i0 + 1) _ hupd j (by simpa using hi)

/-- C5: with all regions decoded, the i-th emitted name is the
canonical base name X.dtb when it has not occurred before, and
X_k.dtb when it is the k-th repeat (k collisions so far), matching
the registry semantics of lines 129-137. -/
theorem C5_name_collisions (ns : List (List Char)) (i : Nat) (X : List Char)
    (hi : i < ns.length) (hshape : ns.getD i [] = X ++ dtbExt)
    (hX : X.any (fun c => c ≠ '.') = true) :
    (mainLoop (ns.map some) 0 emptyUsed).getD i [] =
      (if countOcc (ns.getD i []) (ns.take i) = 0 then ns.getD i []
       else X ++ '_' :: natDigits (countOcc (ns.getD i []) (ns.take i)) ++ dtbExt) := by
  have hmain := mainLoop_map_some_getD ns [] 0 emptyUsed
    (fun b => by simp [emptyUsed, countOcc]) i hi
  rw [List.nil_append] at hmain
  rw [hmain]
  by_cases h0 : countOcc (ns.getD i []) (ns.take i) = 0
  · rw [if_pos h0, if_pos h0]
  · rw [if_neg h0, if_neg h0]
    rw [suffixed, hshape, pySplitext_dtb X hX]

/-- Witness for C5: the second occurrence of a-b-c.dtb becomes
a-b-c_1.dtb. -/
theorem C5_name_collisions_witness :
    (1 < ([("a-b-c.dtb").toList, ("a-b-c.dtb").toList] : List (List Char)).length ∧
      ([("a-b-c.dtb").toList, ("a-b-c.dtb").toList] : List (List Char)).getD 1 [] =
        ("a-b-c").toList ++ dtbExt ∧
      (("a-b-c").toList).any (fun c => c ≠ '.') = true) ∧
    (mainLoop (([("a-b-c.dtb").toList, ("a-b-c.dtb").toList] : List (List Char)).map some)
        0 emptyUsed).getD 1 [] =
      (if countOcc (([("a-b-c.dtb").toList, ("a-b-c.dtb").toList] : List (List Char)).getD 1 [])
            (([("a-b-c.dtb").toList, ("a-b-c.dtb").toList] : List (List Char)).take 1) = 0
       then ([("a-b-c.dtb").toList, ("a-b-c.dtb").toList] : List (List Char)).getD 1 []
       else ("a-b-c").toList ++ '_' ::
          natDigits (countOcc
            (([("a-b-c.dtb").toList, ("a-b-c.dtb").toList] : List (List Char)).getD 1 [])
            (([("a-b-c.dtb").toList, ("a-b-c.dtb").toList] : List (List Char)).take 1)) ++
          dtbExt) :=
  ⟨⟨by decide, by decide, by decide⟩,
    C5_name_collisions [("a-b-c.dtb").toList, ("a-b-c.dtb").toList] 1 (("a-b-c").toList)
      (by decide) (by decide) (by decide)⟩

end ExtractDtb

namespace ExtractDtb

/-! ### Write failure lemmas -/

theorem processRegions_ok (writeOk : Nat → Bool) :
    ∀ (ds : List (Option (List Char))) (i0 : Nat) (used : UsedMap),
      (∀ j, j < ds.length → writeOk (i0 + j) = true) →
      processRegions writeOk ds i0 used = Except.ok (mainLoop ds i0 used) := by
  intro ds
  induction ds with
  | nil => intro i0 used _; rfl
  | cons d ds ih =>
    intro i0 used hall
    have h0 : writeOk i0 = true := by simpa using hall 0 (by simp)
    have hrest : ∀ j, j < ds.length → writeOk (i0 + 1 + j) = true := by
      intro j hj
      rw [show i0 + 1 + j = i0 + (j + 1) by omega]
      exact hall (j + 1) (by simpa using Nat.succ_lt_succ hj)
    cases d with
    | some nm =>
      simp only [processRegions, h0, if_true]
      rw [ih (i0 + 1) (assignName used nm).2 hrest]
      rfl
    | none =>
      simp only [processRegions, h0, if_true]
      rw [ih (i0 + 1) used hrest]
      rfl

theorem processRegions_error (writeOk : Nat → Bool) :
    ∀ (ds : List (Option (List Char))) (i0 : Nat) (used : UsedMap) (k : Nat),
      k < ds.length → writeOk (i0 + k) = false →
      (∀ j, j < k → writeOk (i0 + j) = true) →
      processRegions writeOk ds i0 used = Except.error (i0 + k) := by
  intro ds
  induction ds with
  | nil => intro i0 used k hk _ _; simp at hk
  | cons d ds ih =>
    intro i0 used k hk hfail hpre
    cases k with
    | zero =>
      have h0 : writeOk i0 = false := by simpa using hfail
      cases d with
      | some nm => simp [processRegions, h0]
      | none => simp [processRegions, h0]
    | succ j =>
      have h0 : writeOk i0 = true := by simpa using hpre 0 (by omega)
      have hfail' : writeOk (i0 + 1 + j) = false := by
        rw [show i0 + 1 + j = i0 + (j + 1) by omega]
        exact hfail
      have hpre' : ∀ m, m < j → writeOk (i0 + 1 + m) = true := by
        intro m hm
        rw [show i0 + 1 + m = i0 + (m + 1) by omega]
        exact hpre (m + 1) (by omega)
      have hj : j < ds.length := by simpa using hk
      cases d with
      | some nm =>
        simp only [processRegions, h0, if_true]
        rw [ih (i0 + 1) (assignName used nm).2 j hj hfail' hpre']
        rw [show i0 + 1 + j = i0 + (j + 1) by omega]
      | none =>
        simp only [processRegions, h0, if_true]
        rw [ih (i0 + 1) used j hj hfail' hpre']
        rw [show i0 + 1 + j = i0 + (j + 1) by omega]

/-- C8 counterexample: when the write of region 0 fails, the run
aborts with an uncaught exception at index 0; region 1 is never
attempted, unlike the successful run, which emits both names. -/
theorem C8_counterexample :
    processRegions (fun i => decide (i ≠ 0))
        [some (("a-b-c.dtb").toList), some (("a-b-c.dtb").toList)] 0 emptyUsed =
      Except.error 0 ∧
    processRegions (fun _ => true)
        [some (("a-b-c.dtb").toList), some (("a-b-c.dtb").toList)] 0 emptyUsed =
      Except.ok [("a-b-c.dtb").toList, ("a-b-c_1.dtb").toList] := by
  exact ⟨rfl, rfl⟩

/-- C8 amended: a per-region write failure aborts the run at the first
failing index: when every write up to the batch length succeeds the
loop emits every region's name, and when the write of relative region
k is the first to fail the loop stops with that index and the later
regions are not attempted. -/
theorem C8_write_failure_aborts (writeOk : Nat → Bool)
    (ds : List (Option (List Char))) (i0 : Nat) (used : UsedMap) :
    ((∀ j, j < ds.length → writeOk (i0 + j) = true) →
      processRegions writeOk ds i0 used = Except.ok (mainLoop ds i0 used)) ∧
    (∀ k, k < ds.length → writeOk (i0 + k) = false →
      (∀ j, j < k → writeOk (i0 + j) = true) →
      processRegions writeOk ds i0 used = Except.error (i0 + k)) :=
  ⟨processRegions_ok writeOk ds i0 used,
    fun k hk hf hp => processRegions_error writeOk ds i0 used k hk hf hp⟩

/-- Witness for C8: a first write failure at index 1 of two regions
aborts with error 1. -/
theorem C8_write_failure_aborts_witness :
    processRegions (fun i => decide (i ≠ 1)) [none, none] 0 emptyUsed =
      Except.error (0 + 1) :=
  (C8_write_failure_aborts (fun i => decide (i ≠ 1)) [none, none] 0 emptyUsed).2 1
    (by decide) (by decide)
    (fun j hj => by
      have hj0 : j = 0 := by omega
      subst hj0
      decide)

end ExtractDtb

namespace ExtractDtb

/-! ### Split and field extraction lemmas -/

theorem pySplit_ne_nil (sep : Char) : ∀ s : List Char, pySplit sep s ≠ [] := by
  intro s
  cases s with
  | nil => simp [pySplit]
  | cons c rest =>
    rw [pySplit]
    by_cases h : c = sep
    · simp [h]
    · simp only [if_neg h]
      cases hps : pySplit sep rest with
      | nil => simp
      | cons g gs => simp

theorem getD_zero_eq_headD (l : List (List Char)) : l.getD 0 [] = l.headD [] := by
  cases l with
  | nil => rfl
  | cons x xs => rfl

theorem pySplit_headD (sep : Char) :
    ∀ s : List Char,
      (pySplit sep s).headD [] = s.takeWhile (fun c => !(decide (c = sep))) := by
  intro s
  induction s with
  | nil => rfl
  | cons c rest ih =>
    rw [pySplit, List.takeWhile_cons]
    by_cases h : c = sep
    · rw [if_pos h, List.headD_cons]
      simp [h]
    · rw [if_neg h]
      cases hps : pySplit sep rest with
      | nil => exact absurd hps (pySplit_ne_nil sep rest)
      | cons g gs =>
        rw [hps, List.headD_cons] at ih
        simp [h, ih]

theorem contains_iff_mem (s : List Char) (a : Char) : s.contains a = true ↔ a ∈ s := by
  rw [show s.contains a = s.elem a from rfl]
  exact List.elem_iff

theorem pySplit_getD_one (sep : Char) :
    ∀ s : List Char, sep ∈ s →
      (pySplit sep s).getD 1 [] =
        ((s.dropWhile (fun c => !(decide (c = sep)))).tail).takeWhile
          (fun c => !(decide (c = sep))) := by
  intro s
  induction s with
  | nil => intro h; simp at h
  | cons c rest ih =>
    intro hmem
    rw [pySplit, List.dropWhile_cons]
    by_cases h : c = sep
    · rw [if_pos h]
      rw [show (([] :: pySplit sep rest).getD 1 [] : List Char) =
            (pySplit sep rest).getD 0 [] from rfl]
      rw [getD_zero_eq_headD, pySplit_headD]
      simp [h]
    · rw [if_neg h]
      have hmem' : sep ∈ rest := by
        rcases List.mem_cons.mp hmem with hs | hm
        · exact absurd hs.symm h
        · exact hm
      cases hps : pySplit sep rest with
      | nil => exact absurd hps (pySplit_ne_nil sep rest)
      | cons g gs =>
        have hih := ih hmem'
        rw [hps] at hih
        rw [show (((c :: g) :: gs).getD 1 [] : List Char) = gs.getD 0 [] from rfl]
        rw [show ((g :: gs).getD 1 [] : List Char) = gs.getD 0 [] from rfl] at hih
        rw [hih]
        simp [h]

theorem pySplit_two_iff (sep : Char) :
    ∀ s : List Char, 2 ≤ (pySplit sep s).length ↔ sep ∈ s := by
  intro s
  induction s with
  | nil => simp [pySplit]
  | cons c rest ih =>
    rw [pySplit]
    by_cases h : c = sep
    · rw [if_pos h]
      simp only [List.length_cons]
      constructor
      · intro _
        exact List.mem_cons.mpr (Or.inl h.symm)
      · intro _
        have hne := pySplit_ne_nil sep rest
        have hpos : 1 ≤ (pySplit sep rest).length := List.length_pos.mpr hne
        omega
    · rw [if_neg h]
      cases hps : pySplit sep rest with
      | nil => exact absurd hps (pySplit_ne_nil sep rest)
      | cons g gs =>
        rw [hps] at ih
        simp only [List.length_cons] at ih ⊢
        constructor
        · intro hlen
          exact List.mem_cons.mpr (Or.inr (ih.mp (by omega)))
        · intro hmem
          rcases List.mem_cons.mp hmem with hs | hm
          · exact absurd hs.symm h
          · have := ih.mpr hm
            omega

end ExtractDtb

namespace ExtractDtb

/-- C3 counterexample: for the value a,b,c the source emits the piece
between the first and second comma (b), not the whole substring after
the first comma (b,c) that the claim predicts. -/
theorem C3_counterexample :
    reSearchGroup compatKey (("compatible = \"a,b,c\";").toList) =
      some (("a,b,c").toList) ∧
    computeArg1 (("compatible = \"a,b,c\";").toList) = ("b").toList ∧
    ("b").toList ≠ pyStrip (("b,c").toList) := by
  exact ⟨by decide, by decide, by decide⟩

/-- C3 amended: arg1 is unknown when no compatible field matches; the
whole trimmed value when it has no comma; and when it has a comma, the
trimmed second comma-separated piece (the characters strictly between
the first comma and the next comma or the end), not everything after
the first comma. -/
theorem C3_compatible_token (dts : List Char) :
    (reSearchGroup compatKey dts = none → computeArg1 dts = ("unknown").toList) ∧
    (∀ raw, reSearchGroup compatKey dts = some raw →
      (raw.contains ',' = false → computeArg1 dts = pyStrip raw) ∧
      (raw.contains ',' = true →
        computeArg1 dts =
          pyStrip (((raw.dropWhile (fun c => !(decide (c = ',')))).tail).takeWhile
            (fun c => !(decide (c = ',')))))) := by
  constructor
  · intro h
    rw [computeArg1, h]
  · intro raw hraw
    constructor
    · intro hc
      rw [computeArg1, hraw]
      show (if raw.contains ',' = true then pyStrip ((pySplit ',' raw).getD 1 [])
            else pyStrip raw) = pyStrip raw
      rw [hc]
      simp
    · intro hc
      have hstep : computeArg1 dts = pyStrip ((pySplit ',' raw).getD 1 []) := by
        rw [computeArg1, hraw]
        show (if raw.contains ',' = true then pyStrip ((pySplit ',' raw).getD 1 [])
              else pyStrip raw) = pyStrip ((pySplit ',' raw).getD 1 [])
        rw [hc]
        simp
      rw [hstep, pySplit_getD_one ',' raw ((contains_iff_mem raw ',').mp hc)]

/-- Witness for C3 at the documented example google,zuma. -/
theorem C3_compatible_token_witness :
    reSearchGroup compatKey (("compatible = \"google,zuma\";").toList) =
      some (("google,zuma").toList) ∧
    computeArg1 (("compatible = \"google,zuma\";").toList) =
      pyStrip ((((("google,zuma").toList).dropWhile
          (fun c => !(decide (c = ',')))).tail).takeWhile
        (fun c => !(decide (c = ',')))) :=
  ⟨by decide,
    ((C3_compatible_token (("compatible = \"google,zuma\";").toList)).2
      (("google,zuma").toList) (by decide)).2 (by decide)⟩

/-- C4 counterexample: a present but empty description value yields an
empty arg2, not the default unk the claim predicts for an empty first
segment. -/
theorem C4_counterexample :
    reSearchGroup descKey (("description = \"\";").toList) = some [] ∧
    computeArg2 (("description = \"\";").toList) = [] ∧
    ([] : List Char) ≠ ("unk").toList := by
  exact ⟨by decide, by decide, by decide⟩

/-- C4 amended: when no description field matches, arg2 = arg3 = unk;
when one matches, arg2 is the first comma-separated segment lowercased
and trimmed with no default for an empty segment, and arg3 is the
second segment lowercased and trimmed when the value contains a comma
and unk otherwise. -/
theorem C4_description_tokens (dts : List Char) :
    (reSearchGroup descKey dts = none →
      computeArg2 dts = ("unk").toList ∧ computeArg3 dts = ("unk").toList) ∧
    (∀ raw, reSearchGroup descKey dts = some raw →
      computeArg2 dts =
        pyLower (pyStrip (raw.takeWhile (fun c => !(decide (c = ','))))) ∧
      (raw.contains ',' = true →
        computeArg3 dts =
          pyLower (pyStrip (((raw.dropWhile (fun c => !(decide (c = ',')))).tail).takeWhile
            (fun c => !(decide (c = ',')))))) ∧
      (raw.contains ',' = false → computeArg3 dts = ("unk").toList)) := by
  constructor
  · intro h
    constructor
    · rw [computeArg2, h]
    · rw [computeArg3, h]
  · intro raw hraw
    refine ⟨?_, ?_, ?_⟩
    · rw [computeArg2, hraw]
      show pyLower (pyStrip ((pySplit ',' raw).headD [])) = _
      rw [pySplit_headD]
    · intro hc
      have hmem := (contains_iff_mem raw ',').mp hc
      have hlen : 2 ≤ (pySplit ',' raw).length := (pySplit_two_iff ',' raw).mpr hmem
      have hstep : computeArg3 dts = pyLower (pyStrip ((pySplit ',' raw).getD 1 [])) := by
        rw [computeArg3, hraw]
        simp [hlen]
      rw [hstep, pySplit_getD_one ',' raw hmem]
    · intro hc
      have hmem : ',' ∉ raw := fun hm => by
        rw [(contains_iff_mem raw ',').mpr hm] at hc
        cases hc
      have hlen : ¬2 ≤ (pySplit ',' raw).length :=
        fun hl => hmem ((pySplit_two_iff ',' raw).mp hl)
      rw [computeArg3, hraw]
      simp [hlen]

/-- Witness for C4 at the documented example B0,IPOP. -/
theorem C4_description_tokens_witness :
    reSearchGroup descKey (("description = \"B0,IPOP\";").toList) =
      some (("B0,IPOP").toList) ∧
    computeArg2 (("description = \"B0,IPOP\";").toList) =
      pyLower (pyStrip ((("B0,IPOP").toList).takeWhile (fun c => !(decide (c = ','))))) :=
  ⟨by decide,
    ((C4_description_tokens (("description = \"B0,IPOP\";").toList)).2
      (("B0,IPOP").toList) (by decide)).1⟩

end ExtractDtb
